import Mathlib

/-
Verification of the ziggypy Ziggurat container encoder
(src/ziggypy/src/ziggypy/{components,container,variables}.py) against its
natural-language specification.

Byte strings are modelled as List Nat (each entry one byte, 0..255); Python
ints are modelled as Int (arbitrary precision, as in Python); struct.pack
of an int64 is modelled by reduction mod 2^64 into 8 little-endian bytes.
-/

namespace Ziggypy

/-! ### Varint codec

The varint implementation is not under src/ (the repository imports the
external ziggurat_varint module, falling back to a local varint module that
is also absent).  Modelled from the spec: section 4.1 defines signed values
as zig-zag mapping z = (n << 1) ^ (n >> 63) followed by unsigned LEB128
(7 data bits per byte, continuation bit is the high bit), unsigned values
as plain LEB128, and the block form as the concatenation of the individual
varints of a group. -/

/-- Unsigned LEB128: 7 data bits per byte, low groups first, high bit set on
every byte except the last.  The extra fuel argument makes the recursion
structural (fuel n + 1 always suffices since the value shrinks by a factor
of 128 every step); it does not change the result. -/
def leb128Go : Nat → Nat → List Nat
  | _, 0 => []
  | n, fuel + 1 => if n < 128 then [n] else (n % 128 + 128) :: leb128Go (n / 128) fuel

/-- Unsigned LEB128 encoding of a natural number. -/
def leb128 (n : Nat) : List Nat := leb128Go n (n + 1)

/-- Zig-zag mapping of a signed 64-bit value: (n << 1) ^ (n >> 63), i.e.
2n for n ≥ 0 and −2n − 1 for n < 0. -/
def zigzag (n : Int) : Nat := if 0 ≤ n then 2 * n.toNat else 2 * (-n).toNat - 1

/-- Modelled from the spec: encode_varint, the signed (zig-zag) varint. -/
def encodeVarint (n : Int) : List Nat := leb128 (zigzag n)

/-- Modelled from the spec: encode_varint_unsigned, plain LEB128 (defined for
non-negative inputs; negative inputs never occur in its uses). -/
def encodeVarintUnsigned (n : Int) : List Nat := leb128 n.toNat

/-- Modelled from the spec: encode_varint_block, concatenation of the signed
varints of the elements of a block. -/
def encodeVarintBlock (l : List Int) : List Nat := (l.map encodeVarint).flatten

/-- Modelled from the spec: encode_varint_block_unsigned, concatenation of
the unsigned varints of the elements of a block. -/
def encodeVarintBlockUnsigned (l : List Int) : List Nat :=
  (l.map encodeVarintUnsigned).flatten

/-- Little-endian 8-byte image of an int64, as written by pack with format
<q: the value reduced mod 2^64, split into 8 bytes, least significant
first. -/
def int64le (n : Int) : List Nat :=
  (List.range 8).map (fun i => (n % (2 : Int) ^ 64).toNat / 256 ^ i % 256)

/-! ### InvertedIndex (components.py, class InvertedIndex)

The constructor takes a sequence of types (used only for its length, one
postings list per type) and, for each corpus position, the list of type ids
occurring there.  postings[t] collects the corpus positions i, in loop
order, once per occurrence of t in the list of position i. -/

/-- Postings list of one type id t over the positions starting at corpus
position n: every occurrence of t in the list at position i contributes
one entry i, in position order. -/
def postingsAux (t : Nat) (n : Nat) (ps : List (List Nat)) : List Nat :=
  ((List.enumFrom n ps).map (fun p => (p.2.filter (fun x => x == t)).map (fun _ => p.1))).flatten

/-- Postings lists: for each type id t < v, the corpus positions at which t
occurs, in position order, repeated once per occurrence of t at that
position.  This mirrors the double loop
for i, occurences in enumerate(positions): for t in occurences:
postings[t].append(i). -/
def postingsOf (v : Nat) (positions : List (List Nat)) : List (List Nat) :=
  (List.range v).map (fun t => postingsAux t 0 positions)

/-- Delta encoding as computed by the constructor: the first element stays
raw, every later element is replaced by its difference from its
predecessor (delta -= append([0], delta[:-1])). -/
def deltaEncode (l : List Int) : List Int :=
  match l with
  | [] => []
  | x :: xs => x :: List.zipWith (fun a b => a - b) xs l

/-- Encoded postings lists: each postings list delta-encoded and passed to
encode_varint_block (the signed, zig-zag block encoder). -/
def invPostingsEncoded (types : List (List Nat)) (positions : List (List Nat)) : List (List Nat) :=
  (postingsOf types.length positions).map
    (fun pl => encodeVarintBlock (deltaEncode (pl.map Int.ofNat)))

/-- TypeInfo rows (frequency, payload offset): frequency is the length of
the postings list, offsets accumulate the byte lengths of the encoded
postings lists, starting at 0. -/
def invTypeinfoGo (off : Nat) : List (List Nat) → List (List Nat) → List (Nat × Nat)
  | pl :: pls, e :: es => (pl.length, off) :: invTypeinfoGo (off + e.length) pls es
  | _, _ => []

/-- TypeInfo table of the InvertedIndex constructor. -/
def invTypeinfo (types : List (List Nat)) (positions : List (List Nat)) : List (Nat × Nat) :=
  invTypeinfoGo 0 (postingsOf types.length positions) (invPostingsEncoded types positions)

/-- The constructor sets self.encoded to the empty byte string and never
extends it (components.py line 568); typeinfo and the encoded postings are
stored in separate attributes. -/
def invEncoded (_types : List (List Nat)) (_positions : List (List Nat)) : List Nat := []

/-- InvertedIndex.bytelen: the length of self.encoded. -/
def invBytelen (types : List (List Nat)) (positions : List (List Nat)) : Nat :=
  (invEncoded types positions).length

/-- Bytes emitted by InvertedIndex.write: for every TypeInfo row two packed
int64 values (frequency, offset), then the encoded postings lists. -/
def invWriteBytes (types : List (List Nat)) (positions : List (List Nat)) : List Nat :=
  ((invTypeinfo types positions).map (fun fo => int64le fo.1 ++ int64le fo.2)).flatten
    ++ (invPostingsEncoded types positions).flatten

/-! ### StringVector (components.py, class StringVector)

For each of the n strings the running offset is recorded and then advanced
by len(s) + 1; after the loop the constructor appends offset + 1 as the
final entry. -/

/-- Offset table built by the StringVector constructor, including the final
offset + 1 entry appended after the loop. -/
def svOffsetsGo (off : Nat) : List (List Nat) → List Nat
  | [] => [off + 1]
  | s :: ss => off :: svOffsetsGo (off + s.length + 1) ss

/-- Offset table of a StringVector built from the given strings. -/
def svOffsets (strings : List (List Nat)) : List Nat := svOffsetsGo 0 strings

/-- String payload of a StringVector: each string followed by a NUL byte. -/
def svEncoded (strings : List (List Nat)) : List Nat :=
  (strings.map (fun s => s ++ [0])).flatten

/-- StringVector.bytelen: 8 bytes per offset entry plus the payload. -/
def svBytelen (strings : List (List Nat)) : Nat :=
  (svOffsets strings).length * 8 + (svEncoded strings).length

/-- The last entry of the StringVector offset table always exceeds the
payload length by exactly one byte. -/
theorem svOffsets_getLast (strings : List (List Nat)) :
    (svOffsets strings).getLast? = some ((svEncoded strings).length + 1) := by
  suffices h : ∀ off, (svOffsetsGo off strings).getLast? = some (off + (svEncoded strings).length + 1) by
    simpa using h 0
  induction strings with
  | nil => intro off; simp [svOffsetsGo, svEncoded]
  | cons s ss ih =>
      intro off
      have hne : svOffsetsGo (off + s.length + 1) ss ≠ [] := by
        cases ss <;> simp [svOffsetsGo]
      simp only [svOffsetsGo, List.getLast?_cons, svEncoded, List.map_cons, List.flatten_cons]
      rw [ih (off + s.length + 1)]
      simp only [Option.getD_some, Option.some.injEq, List.length_append, List.length_flatten]
      simp [svEncoded]
      omega

/-! ### Container (container.py)

The header is 160 bytes, each BOM entry 48 bytes.  The comment passed by
the caller is UTF-8 encoded, the attribution suffix is appended, and the
constructor asserts that the result is shorter than 72 bytes.  The offset
table starts at data_start and each later entry is the aligned end of its
predecessor, using the reported bytelen. -/

/-- UTF-8 bytes of the attribution suffix appended by the Container
constructor to every comment (22 ASCII characters). -/
def ziggySuffix : List Nat :=
  [32, 101, 110, 99, 111, 100, 101, 100, 32, 117, 115, 105, 110, 103, 32,
   90, 105, 103, 103, 121, 80, 121]

/-- Comment stored by the Container constructor: caller bytes followed by
the attribution suffix. -/
def containerComment (c : List Nat) : List Nat := c ++ ziggySuffix

/-- The assert guarding the comment field: the stored comment must be
strictly shorter than 72 bytes before NUL padding. -/
def containerCommentOk (c : List Nat) : Prop := (containerComment c).length < 72

instance (c : List Nat) : Decidable (containerCommentOk c) :=
  inferInstanceAs (Decidable (_ < _))

/-- Offset of the data section: BOM_START + components * LEN_BOM_ENTRY. -/
def dataStart (cn : Nat) : Nat := 160 + cn * 48

/-- Alignment of an offset to the next 8-byte boundary (align_offset). -/
def alignOffset (o : Nat) : Nat := if o % 8 > 0 then o + (8 - o % 8) else o

/-- Offset list construction of Container.write_header: the first component
sits at the data start, each later one at the aligned end of its
predecessor (predecessor offset + reported bytelen, aligned). -/
def containerOffsetsGo (start : Nat) : List Nat → List Nat
  | [] => []
  | sz :: rest => start :: containerOffsetsGo (alignOffset (start + sz)) rest

/-- BOM offsets of a container whose components report the given sizes. -/
def containerOffsets (sizes : List Nat) : List Nat :=
  containerOffsetsGo (dataStart sizes.length) sizes

/-- Pad lengths of Container.write: before each component the writer emits
offset − tell zero bytes, where tell advances by the bytes the component
actually writes.  The second list gives the byte counts actually written. -/
def containerPadsGo (tell : Nat) : List (Nat × Nat) → List Int
  | [] => []
  | ow :: rest => ((ow.1 : Int) - (tell : Int)) :: containerPadsGo (ow.1 + ow.2) rest

/-- Pad lengths emitted when writing a container whose components report
sizes and actually write written bytes. -/
def containerPads (sizes written : List Nat) : List Int :=
  containerPadsGo (dataStart sizes.length) ((containerOffsets sizes).zip written)

/-! ### PointerVariable (variables.py, class PointerVariable)

After asserting that the heads sequence has the length of the base layer,
the constructor asserts all(h >= -1 and h < len(heads) for h in heads). -/

/-- The head range check of the PointerVariable constructor. -/
def ptrRangeOk (heads : List Int) : Bool :=
  heads.all (fun h => decide (-1 ≤ h) && decide (h < (heads.length : Int)))

/-! ### IndexedStringVariable (variables.py, class IndexedStringVariable)

The lexicon is Counter(strings).most_common(): counts are kept in first
occurrence order and sorted by a stable sort on descending count, so ties
keep first-seen order.  lex maps each unique string to its rank;
lexids is a generator of lex[s] over the corpus.  That generator is
consumed by the LexIDStream builder (VectorComp or Vector) and then passed,
already exhausted, to the InvertedIndex constructor, which therefore
iterates over no positions at all. -/

/-- Occurrence counts in first-occurrence order, as a Counter holds them. -/
def countOcc (l : List (List Nat)) : List (List Nat × Nat) :=
  l.foldl (fun acc s =>
    if acc.any (fun p => p.1 == s) then
      acc.map (fun p => if p.1 == s then (p.1, p.2 + 1) else p)
    else acc ++ [(s, 1)]) []

/-- Counter.most_common(): the counts stably sorted by descending count
(Python sorted with reverse=True is stable, so equal counts keep their
first-occurrence order). -/
def mostCommon (l : List (List Nat)) : List (List Nat × Nat) :=
  (countOcc l).insertionSort (fun a b => b.2 ≤ a.2)

/-- Lexicon of an IndexedStringVariable: the unique strings in most_common
order. -/
def isvLexicon (strings : List (List Nat)) : List (List Nat) :=
  (mostCommon strings).map Prod.fst

/-- Values of the LexIDStream: each corpus string replaced by its lexicon
rank. -/
def isvLexIds (strings : List (List Nat)) : List Nat :=
  strings.map (fun s => (isvLexicon strings).indexOf s)

/-- Positions argument actually received by the InvertedIndex constructor
in IndexedStringVariable: the lexids generator was already consumed by the
LexIDStream builder (variables.py lines 100-108), so the iteration yields
nothing. -/
def isvInvIdxPositions (_strings : List (List Nat)) : List (List Nat) := []

end Ziggypy

namespace Ziggypy

/-! ### Claim theorems: C1 and C3 -/

/-- C1: the claim states that every component reports through bytelen
exactly the number of bytes its write method emits, in particular
InvertedIndex.  The code contradicts this: for an InvertedIndex over one
type with a single occurrence at position 0, bytelen reports 0 bytes (the
never-extended self.encoded) while write emits 17 bytes (one 16-byte
TypeInfo row plus the 1-byte encoded postings list). -/
theorem invertedIndex_bytelen_ne_written :
    invBytelen [[97]] [[0]] = 0 ∧ (invWriteBytes [[97]] [[0]]).length = 17 := by decide

/-- C3: the claim states that for a StringVector over n strings the offset
table has n + 1 entries, starts at 0, is monotone, and ends with the total
payload length.  The code contradicts the last part: for the single string
a the payload is the 2 bytes 97 0, yet the constructor appends offset + 1
and the table reads [0, 3].  (The general fact that the final entry always
equals payload length + 1 is svOffsets_getLast above.) -/
theorem stringVector_final_offset_off_by_one :
    svOffsets [[97]] = [0, 3] ∧ svEncoded [[97]] = [97, 0] ∧
      (svEncoded [[97]]).length = 2 := by decide

/-- C2: for the corpus a, b, a the claim demands Lexicon [a, b], LexIDStream
[0, 1, 0], postings deltas [0, 2] and [1], and TypeInfo [(2, 0), (1, o1)].
The lexicon and id stream are as claimed, and an InvertedIndex fed the
per-position lexicon ids would produce exactly the claimed postings and
TypeInfo (with o1 = 2).  But the constructor receives the lexids generator
after the LexIDStream builder has exhausted it, so it sees no positions and
builds TypeInfo [(0, 0), (0, 0)] with empty postings lists. -/
theorem indexedStringVariable_three_token_eval :
    isvLexicon [[97], [98], [97]] = [[97], [98]]
    ∧ isvLexIds [[97], [98], [97]] = [0, 1, 0]
    ∧ invTypeinfo (isvLexicon [[97], [98], [97]]) (isvInvIdxPositions [[97], [98], [97]])
        = [(0, 0), (0, 0)]
    ∧ postingsOf 2 [[0], [1], [0]] = [[0, 2], [1]]
    ∧ deltaEncode [0, 2] = [0, 2] ∧ deltaEncode [1] = [1]
    ∧ invTypeinfo [[97], [98]] [[0], [1], [0]] = [(2, 0), (1, 2)] := by decide

/-- C4 counterexample: a caller comment of 50 bytes is shorter than 72
bytes, yet construction fails, because the constructor first appends the
22-byte attribution suffix and only then checks the 72-byte cap. -/
theorem containerComment_50_bytes_rejected :
    (List.replicate 50 97).length < 72
      ∧ ¬ containerCommentOk (List.replicate 50 97) := by decide

/-- C4 (amended): construction fails exactly when the stored comment
(caller comment plus 22-byte suffix) reaches 72 bytes before NUL padding,
i.e. exactly when the caller comment has at least 50 UTF-8 bytes; every
accepted comment fits the 72-byte header field. -/
theorem containerComment_cap (c : List Nat) :
    (¬ containerCommentOk c ↔ 72 ≤ (containerComment c).length)
    ∧ (containerCommentOk c ↔ c.length < 50)
    ∧ (containerCommentOk c → (containerComment c).length ≤ 72) := by
  have h : (containerComment c).length = c.length + 22 := by
    simp [containerComment, ziggySuffix]
  refine ⟨?_, ?_, ?_⟩ <;> simp only [containerCommentOk, h] <;> omega

/-- Witness for containerComment_cap at the one-byte comment. -/
theorem containerComment_cap_witness :
    containerCommentOk [97] ∧ (containerComment [97]).length ≤ 72 :=
  ⟨by decide, (containerComment_cap [97]).2.2 (by decide)⟩

/-- C9: the PointerVariable head check fails exactly when some head lies
outside the set consisting of -1 and the base-layer positions 0..N-1 (the
constructor has already asserted that the heads sequence has the length N
of the base layer); heads [0, 2, -1] with N = 3 pass and heads [0, 3, -1]
with N = 3 fail. -/
theorem pointerVariable_range_check :
    (∀ heads : List Int,
      (ptrRangeOk heads = false
        ↔ ∃ h ∈ heads, ¬(h = -1 ∨ (0 ≤ h ∧ h ≤ (heads.length : Int) - 1))))
    ∧ ptrRangeOk [0, 2, -1] = true ∧ ptrRangeOk [0, 3, -1] = false := by
  refine ⟨fun heads => ?_, by decide, by decide⟩
  rw [← Bool.not_eq_true, ptrRangeOk, List.all_eq_true]
  push_neg
  apply exists_congr
  intro h
  apply and_congr_right
  intro _
  rw [Ne, Bool.and_eq_true, decide_eq_true_eq, decide_eq_true_eq]
  omega

/-! ### Container layout lemmas and C5 -/

theorem alignOffset_mod (o : Nat) : alignOffset o % 8 = 0 := by
  unfold alignOffset; split <;> omega

theorem le_alignOffset (o : Nat) : o ≤ alignOffset o := by
  unfold alignOffset; split <;> omega

theorem alignOffset_lt (o : Nat) : alignOffset o < o + 8 := by
  unfold alignOffset; split <;> omega

theorem alignOffset_eq_of_mod (o : Nat) (h : o % 8 = 0) : alignOffset o = o := by
  unfold alignOffset; split <;> omega

theorem dataStart_mod (cn : Nat) : dataStart cn % 8 = 0 := by
  unfold dataStart; omega

theorem containerOffsetsGo_le_of_mem (sizes : List Nat) :
    ∀ start, ∀ o ∈ containerOffsetsGo start sizes, start ≤ o := by
  induction sizes with
  | nil => intro start o ho; simp [containerOffsetsGo] at ho
  | cons sz rest ih =>
      intro start o ho
      simp only [containerOffsetsGo, List.mem_cons] at ho
      rcases ho with rfl | ho
      · exact le_refl o
      · exact le_trans (le_trans (Nat.le_add_right start sz) (le_alignOffset _)) (ih _ o ho)

theorem containerOffsetsGo_mod (sizes : List Nat) :
    ∀ start, start % 8 = 0 → ∀ o ∈ containerOffsetsGo start sizes, o % 8 = 0 := by
  induction sizes with
  | nil => intro start _ o ho; simp [containerOffsetsGo] at ho
  | cons sz rest ih =>
      intro start hs o ho
      simp only [containerOffsetsGo, List.mem_cons] at ho
      rcases ho with rfl | ho
      · exact hs
      · exact ih _ (alignOffset_mod _) o ho

theorem containerOffsetsGo_pairwise_le (sizes : List Nat) :
    ∀ start, (containerOffsetsGo start sizes).Pairwise (· ≤ ·) := by
  induction sizes with
  | nil => intro start; simp [containerOffsetsGo]
  | cons sz rest ih =>
      intro start
      simp only [containerOffsetsGo, List.pairwise_cons]
      refine ⟨fun o ho => ?_, ih _⟩
      exact le_trans (le_trans (Nat.le_add_right start sz) (le_alignOffset _))
        (containerOffsetsGo_le_of_mem rest _ o ho)

theorem containerOffsetsGo_pairwise_lt (sizes : List Nat) :
    ∀ start, (∀ sz ∈ sizes.dropLast, 0 < sz) →
      (containerOffsetsGo start sizes).Pairwise (· < ·) := by
  induction sizes with
  | nil => intro start _; simp [containerOffsetsGo]
  | cons sz rest ih =>
      intro start hpos
      simp only [containerOffsetsGo, List.pairwise_cons]
      cases rest with
      | nil => simp [containerOffsetsGo]
      | cons sz2 rest2 =>
          have hsz : 0 < sz := hpos sz (by simp)
          have hrest : ∀ s ∈ (sz2 :: rest2).dropLast, 0 < s := by
            intro s hs
            exact hpos s (by simpa [List.dropLast_cons_of_ne_nil] using List.mem_cons_of_mem _ hs)
          refine ⟨fun o ho => ?_, ih _ hrest⟩
          have h1 : start < alignOffset (start + sz) :=
            lt_of_lt_of_le (by omega) (le_alignOffset _)
          exact lt_of_lt_of_le h1 (containerOffsetsGo_le_of_mem _ _ o ho)

theorem containerOffsetsGo_succ (sizes : List Nat) :
    ∀ start i o1 o2 sz, (containerOffsetsGo start sizes)[i]? = some o1 →
      (containerOffsetsGo start sizes)[i + 1]? = some o2 → sizes[i]? = some sz →
      o2 = alignOffset (o1 + sz) := by
  induction sizes with
  | nil => intro start i o1 o2 sz h1 _ _; simp [containerOffsetsGo] at h1
  | cons sz0 rest ih =>
      intro start i o1 o2 sz h1 h2 hsz
      cases i with
      | zero =>
          simp only [containerOffsetsGo, List.getElem?_cons_zero, Option.some.injEq] at h1 hsz
          subst h1; subst hsz
          cases rest with
          | nil => simp [containerOffsetsGo] at h2
          | cons sz1 rest1 =>
              simp only [containerOffsetsGo, List.getElem?_cons_succ,
                List.getElem?_cons_zero, Option.some.injEq] at h2
              omega
      | succ i =>
          simp only [containerOffsetsGo, List.getElem?_cons_succ] at h1 h2 hsz
          exact ih _ i o1 o2 sz h1 h2 hsz

theorem containerPadsGo_bounds (rest : List Nat) :
    ∀ tell, ∀ p ∈ containerPadsGo tell
        ((containerOffsetsGo (alignOffset tell) rest).zip rest), 0 ≤ p ∧ p < 8 := by
  induction rest with
  | nil => intro tell p hp; simp [containerOffsetsGo, containerPadsGo] at hp
  | cons sz rest2 ih =>
      intro tell p hp
      simp only [containerOffsetsGo, List.zip_cons_cons, containerPadsGo,
        List.mem_cons] at hp
      rcases hp with rfl | hp
      · have h1 := le_alignOffset tell
        have h2 := alignOffset_lt tell
        refine ⟨by omega, by omega⟩
      · exact ih (alignOffset tell + sz) p hp

/-- C5 (amended): for every container, the data section begins at
160 + 48·C, every BOM offset is a multiple of 8 and at least 160 + 48·C,
the offsets are monotone non-decreasing, and strictly increasing whenever
every component except possibly the last reports a positive size; each
offset is the aligned end of its predecessor (predecessor offset plus
predecessor reported size, rounded up to the next multiple of 8); and,
when every component writes exactly the size it reports, the writer emits
between 0 and 7 zero pad bytes before each component, landing it exactly
on its BOM offset. -/
theorem containerLayout (sizes : List Nat) :
    (sizes ≠ [] → (containerOffsets sizes).head? = some (dataStart sizes.length))
    ∧ (∀ o ∈ containerOffsets sizes, o % 8 = 0 ∧ dataStart sizes.length ≤ o)
    ∧ (containerOffsets sizes).Pairwise (· ≤ ·)
    ∧ ((∀ sz ∈ sizes.dropLast, 0 < sz) → (containerOffsets sizes).Pairwise (· < ·))
    ∧ (∀ i o1 o2 sz, (containerOffsets sizes)[i]? = some o1 →
        (containerOffsets sizes)[i + 1]? = some o2 → sizes[i]? = some sz →
        o2 = alignOffset (o1 + sz))
    ∧ (∀ p ∈ containerPads sizes sizes, 0 ≤ p ∧ p < 8) := by
  refine ⟨?_, fun o ho => ⟨?_, ?_⟩, ?_, fun h => ?_, ?_, fun p hp => ?_⟩
  · intro hne
    cases sizes with
    | nil => exact absurd rfl hne
    | cons sz rest => rfl
  · exact containerOffsetsGo_mod sizes _ (dataStart_mod _) o ho
  · exact containerOffsetsGo_le_of_mem sizes _ o ho
  · exact containerOffsetsGo_pairwise_le sizes _
  · exact containerOffsetsGo_pairwise_lt sizes _ h
  · exact containerOffsetsGo_succ sizes _
  · have hD : alignOffset (dataStart sizes.length) = dataStart sizes.length :=
      alignOffset_eq_of_mod _ (dataStart_mod _)
    have hb := containerPadsGo_bounds sizes (dataStart sizes.length)
    rw [hD] at hb
    exact hb p hp

/-- Witness for containerLayout at a two-component container with sizes
8 and 16. -/
theorem containerLayout_witness :
    (([8, 16] : List Nat) ≠ [] ∧ ∀ sz ∈ ([8, 16] : List Nat).dropLast, 0 < sz)
    ∧ (containerOffsets [8, 16]).head? = some (dataStart 2)
    ∧ (containerOffsets [8, 16]).Pairwise (· < ·) :=
  ⟨⟨by decide, by decide⟩, (containerLayout [8, 16]).1 (by decide),
    (containerLayout [8, 16]).2.2.2.1 (by decide)⟩

/-- C5 counterexample: offsets are not strictly monotonic for every
emitted container.  A container whose components report sizes 8, 0, 0, 0
(as an IndexedStringVariable over an empty corpus does, given that
InvertedIndex reports 0 bytes) repeats the offset 360 three times. -/
theorem containerOffsets_not_strictly_monotonic :
    containerOffsets [8, 0, 0, 0] = [352, 360, 360, 360]
    ∧ ¬ (containerOffsets [8, 0, 0, 0]).Pairwise (· < ·) := by decide

/-! ### Index and IndexCompressed sorting (components.py)

With sorted=False both constructors run
data[data[:, 1].argsort()] followed by
data[data[:, 0].argsort(kind=mergesort)]: first any sort by position
(argsort default is an unstable quicksort), then a stable sort by key.
The embedding uses insertionSort, the canonical stable sort, for both
passes; the final conjunct of the C6 theorem shows the result is the same
for every position-sorted permutation produced by the first pass, so the
instability of the quicksort pass is irrelevant. -/

/-- Comparison by position (column 1), the first argsort pass. -/
def posLe (a b : Int × Int) : Prop := a.2 ≤ b.2

/-- Comparison by key (column 0), the stable mergesort pass. -/
def keyLe (a b : Int × Int) : Prop := a.1 ≤ b.1

/-- Lexicographic order: key ascending, ties broken by position
ascending. -/
def lexLe (a b : Int × Int) : Prop := a.1 < b.1 ∨ (a.1 = b.1 ∧ a.2 ≤ b.2)

instance : DecidableRel posLe := fun a b => inferInstanceAs (Decidable (a.2 ≤ b.2))

instance : DecidableRel keyLe := fun a b => inferInstanceAs (Decidable (a.1 ≤ b.1))

instance : IsTotal (Int × Int) posLe := ⟨fun a b => le_total a.2 b.2⟩

instance : IsTrans (Int × Int) posLe := ⟨fun _ _ _ h1 h2 => le_trans h1 h2⟩

instance : IsTotal (Int × Int) keyLe := ⟨fun a b => le_total a.1 b.1⟩

instance : IsTrans (Int × Int) keyLe := ⟨fun _ _ _ h1 h2 => le_trans h1 h2⟩

instance : IsAntisymm (Int × Int) lexLe := by
  refine ⟨fun a b h1 h2 => ?_⟩
  rcases h1 with h1 | ⟨hk1, hp1⟩ <;> rcases h2 with h2 | ⟨hk2, hp2⟩
  · omega
  · omega
  · omega
  · exact Prod.ext hk1 (le_antisymm hp1 hp2)

/-- First sorting pass: stable sort of the pairs by position. -/
def sortByPos (l : List (Int × Int)) : List (Int × Int) := l.insertionSort posLe

/-- Second sorting pass: stable sort of the pairs by key. -/
def sortByKey (l : List (Int × Int)) : List (Int × Int) := l.insertionSort keyLe

/-- Pair order held by Index.data after construction. -/
def indexPairs (pairs : List (Int × Int)) (sorted : Bool) : List (Int × Int) :=
  if sorted then pairs else sortByKey (sortByPos pairs)

/-- Pair order processed by the IndexCompressed constructor (identical
sorting code). -/
def icPairs (pairs : List (Int × Int)) (sorted : Bool) : List (Int × Int) :=
  if sorted then pairs else sortByKey (sortByPos pairs)

theorem lexLe_key {a b : Int × Int} (h : lexLe a b) : a.1 ≤ b.1 := by
  rcases h with h | ⟨h, _⟩
  · exact le_of_lt h
  · exact le_of_eq h

theorem orderedInsert_lex (a : Int × Int) :
    ∀ s : List (Int × Int), s.Pairwise lexLe → (∀ b ∈ s, a.2 ≤ b.2) →
      (s.orderedInsert keyLe a).Pairwise lexLe := by
  intro s
  induction s with
  | nil => intro _ _; simp [List.orderedInsert]
  | cons b s ih =>
      intro hp hpos
      rw [List.pairwise_cons] at hp
      obtain ⟨hb, hs⟩ := hp
      by_cases hk : keyLe a b
      · rw [List.orderedInsert, if_pos hk]
        refine List.pairwise_cons.mpr ⟨?_, List.pairwise_cons.mpr ⟨hb, hs⟩⟩
        intro c hc
        have hac : a.1 ≤ c.1 := by
          rcases List.mem_cons.mp hc with rfl | hc2
          · exact hk
          · exact le_trans hk (lexLe_key (hb c hc2))
        rcases lt_or_eq_of_le hac with hlt | heq
        · exact Or.inl hlt
        · exact Or.inr ⟨heq, hpos c hc⟩
      · rw [List.orderedInsert, if_neg hk]
        refine List.pairwise_cons.mpr
          ⟨?_, ih hs (fun c hc => hpos c (List.mem_cons_of_mem _ hc))⟩
        intro c hc
        rcases (List.mem_orderedInsert keyLe).mp hc with rfl | hc2
        · exact Or.inl (not_le.mp hk)
        · exact hb c hc2

theorem insertionSort_key_lex :
    ∀ l : List (Int × Int), l.Pairwise posLe → (l.insertionSort keyLe).Pairwise lexLe := by
  intro l
  induction l with
  | nil => intro _; simp
  | cons a t ih =>
      intro hp
      rw [List.pairwise_cons] at hp
      rw [List.insertionSort]
      refine orderedInsert_lex a _ (ih hp.2) ?_
      intro b hb
      exact hp.1 b ((List.perm_insertionSort keyLe t).subset hb)

/-- C6: with sorted=true both Index and IndexCompressed keep the pairs
exactly as supplied; with sorted=false the emitted order is a permutation
of the input sorted by key ascending with ties broken by position
ascending, and the final conjunct shows that every position-sorted
permutation produced by the first (unstable) sorting pass leads to this
same output, so the order is well defined despite the unstable quicksort
pass. -/
theorem index_sorting (pairs : List (Int × Int)) :
    indexPairs pairs true = pairs ∧ icPairs pairs true = pairs
    ∧ List.Perm (indexPairs pairs false) pairs
    ∧ (indexPairs pairs false).Pairwise lexLe
    ∧ icPairs pairs false = indexPairs pairs false
    ∧ ∀ l1, List.Perm l1 pairs → l1.Pairwise posLe →
        sortByKey l1 = indexPairs pairs false := by
  have hperm : List.Perm (indexPairs pairs false) pairs := by
    simp only [indexPairs, if_neg Bool.false_ne_true, sortByKey, sortByPos]
    exact (List.perm_insertionSort keyLe _).trans (List.perm_insertionSort posLe pairs)
  have hsorted : (indexPairs pairs false).Pairwise lexLe := by
    simp only [indexPairs, if_neg Bool.false_ne_true, sortByKey, sortByPos]
    exact insertionSort_key_lex _ (List.sorted_insertionSort posLe pairs)
  refine ⟨rfl, rfl, hperm, hsorted, rfl, fun l1 hp hpos => ?_⟩
  have h1 : (sortByKey l1).Pairwise lexLe := insertionSort_key_lex l1 hpos
  have h2 : List.Perm (sortByKey l1) (indexPairs pairs false) :=
    ((List.perm_insertionSort keyLe l1).trans hp).trans hperm.symm
  exact List.eq_of_perm_of_sorted h2 h1 hsorted

/-- Witness for index_sorting: the input [(2,0), (1,1), (1,0)], its
position-sorted permutation [(2,0), (1,0), (1,1)], and the resulting
lexicographically sorted output. -/
theorem index_sorting_witness :
    (List.Perm [((2 : Int), (0 : Int)), (1, 0), (1, 1)] [(2, 0), (1, 1), (1, 0)]
      ∧ ([((2 : Int), (0 : Int)), (1, 0), (1, 1)]).Pairwise posLe)
    ∧ sortByKey [(2, 0), (1, 0), (1, 1)] = indexPairs [(2, 0), (1, 1), (1, 0)] false :=
  ⟨⟨by decide, by decide⟩,
    (index_sorting [(2, 0), (1, 1), (1, 0)]).2.2.2.2.2 _ (by decide) (by decide)⟩

/-! ### IndexCompressed blocking (components.py, IndexCompressed constructor)

The loop walks the sorted pairs keeping a running block length blen:
while blen < 16 the element always joins the current block; from the
sixteenth element on it joins only while its key equals the previous
element's key (equivalently, by transitivity of that chain of equalities,
the key of element fifteen of the block); otherwise the block is closed
and a new one starts.  The final block, if shorter than sixteen, is
padded with -1 rows; blocks are modelled unpadded (as the slices
data[bstart:i] the code appends), with the padding amount kept in
icLastPad exactly as the code keeps block_padding.  The recursion is
expressed with a fuel argument (the list length) so that it stays
structural; icBlocksGo_fuel shows any sufficient fuel gives the same
result and icBlocks_eq restates the intended recurrence. -/

/-- Key of the sixteenth element of the current block prefix (data[15]),
the reference key for block extension. -/
def icKey (l : List (Int × Int)) : Int := (l.getD 15 (0, 0)).1

/-- Extension of the first block past sixteen entries: the run of elements
after the sixteenth whose key still equals the reference key. -/
def icExt (l : List (Int × Int)) : List (Int × Int) :=
  (l.drop 16).takeWhile (fun p => p.1 == icKey l)

/-- Remainder of the input after the first block. -/
def icRest (l : List (Int × Int)) : List (Int × Int) :=
  (l.drop 16).dropWhile (fun p => p.1 == icKey l)

/-- First block: sixteen entries plus the equal-key extension. -/
def icBlock1 (l : List (Int × Int)) : List (Int × Int) := l.take 16 ++ icExt l

/-- Fuel-indexed block decomposition; fuel at least the list length gives
the loop semantics. -/
def icBlocksGo : Nat → List (Int × Int) → List (List (Int × Int))
  | _, [] => []
  | 0, a :: t => [a :: t]
  | fuel + 1, a :: t =>
      if (a :: t).length ≤ 16 then [a :: t]
      else icBlock1 (a :: t) :: icBlocksGo fuel (icRest (a :: t))

/-- Blocks of unpadded pairs produced by the IndexCompressed loop. -/
def icBlocks (l : List (Int × Int)) : List (List (Int × Int)) := icBlocksGo l.length l

/-- Padding a block list receives: the final block is padded to sixteen
entries when shorter (block_padding in the code), every other amount is
zero. -/
def icPadOf (bs : List (List (Int × Int))) : Nat :=
  match bs.getLast? with
  | none => 0
  | some b => if b.length < 16 then 16 - b.length else 0

/-- Padding added to the final block (block_padding in the code). -/
def icLastPad (l : List (Int × Int)) : Nat := icPadOf (icBlocks l)

/-- Number of regular items: r = len(blocks) * 16 - block_padding, where
len(blocks) counts the padded block list of the code, equal in length to
icBlocks. -/
def rCode (l : List (Int × Int)) : Nat := 16 * (icBlocks l).length - icLastPad l

/-- Number of overflow items: o = len(data) - r. -/
def oCode (l : List (Int × Int)) : Nat := l.length - rCode l

/-- Number of sync blocks: mr = int((r - 1) / 16) + 1, Python division
truncating toward zero. -/
def mrCode (l : List (Int × Int)) : Int := ((rCode l : Int) - 1).tdiv 16 + 1

theorem icRest_length_lt (l : List (Int × Int)) (h : 16 < l.length) :
    (icRest l).length < l.length := by
  have h1 : (icRest l).length ≤ (l.drop 16).length :=
    (List.dropWhile_sublist _).length_le
  have h2 : (l.drop 16).length = l.length - 16 := List.length_drop 16 l
  omega

theorem icBlocksGo_fuel : ∀ fuel fuel2 (l : List (Int × Int)), l.length ≤ fuel →
    l.length ≤ fuel2 → icBlocksGo fuel l = icBlocksGo fuel2 l := by
  intro fuel
  induction fuel with
  | zero =>
      intro fuel2 l hl _
      have : l = [] := List.eq_nil_of_length_eq_zero (by omega)
      subst this
      cases fuel2 <;> simp [icBlocksGo]
  | succ fuel ih =>
      intro fuel2 l hl hl2
      cases l with
      | nil => cases fuel2 <;> simp [icBlocksGo]
      | cons a t =>
          have hf2 : ∃ f2, fuel2 = f2 + 1 := by
            cases fuel2 with
            | zero => simp at hl2
            | succ f2 => exact ⟨f2, rfl⟩
          obtain ⟨f2, rfl⟩ := hf2
          by_cases h16 : (a :: t).length ≤ 16
          · simp only [icBlocksGo]
            rw [if_pos h16, if_pos h16]
          · simp only [icBlocksGo]
            rw [if_neg h16, if_neg h16]
            have hlt := icRest_length_lt (a :: t) (by omega)
            rw [ih f2 (icRest (a :: t)) (by omega) (by omega)]

/-- Recurrence characterizing icBlocks. -/
theorem icBlocks_eq (l : List (Int × Int)) :
    icBlocks l = if l.length ≤ 16 then (if l = [] then [] else [l])
      else icBlock1 l :: icBlocks (icRest l) := by
  cases l with
  | nil => simp [icBlocks, icBlocksGo]
  | cons a t =>
      have hdef : icBlocks (a :: t) = if (a :: t).length ≤ 16 then [a :: t]
          else icBlock1 (a :: t) :: icBlocksGo t.length (icRest (a :: t)) := rfl
      by_cases h16 : (a :: t).length ≤ 16
      · rw [hdef, if_pos h16, if_pos h16, if_neg (List.cons_ne_nil a t)]
      · have hlt := icRest_length_lt (a :: t) (by omega)
        rw [hdef, if_neg h16, if_neg h16]
        rw [icBlocksGo_fuel t.length (icRest (a :: t)).length (icRest (a :: t))
          (by simp at hlt ⊢; omega) (le_refl _)]
        rfl

theorem icBlocks_flatten (l : List (Int × Int)) : (icBlocks l).flatten = l := by
  suffices H : ∀ n (l : List (Int × Int)), l.length ≤ n → (icBlocks l).flatten = l from
    H l.length l (le_refl _)
  intro n
  induction n with
  | zero =>
      intro l hl
      have hnil : l = [] := List.eq_nil_of_length_eq_zero (by omega)
      subst hnil
      rw [icBlocks_eq]
      simp
  | succ n ih =>
      intro l hl
      rw [icBlocks_eq]
      by_cases h16 : l.length ≤ 16
      · rw [if_pos h16]
        by_cases hnil : l = []
        · subst hnil; simp
        · rw [if_neg hnil]; simp
      · rw [if_neg h16]
        have hlt := icRest_length_lt l (by omega)
        rw [List.flatten_cons, ih (icRest l) (by omega)]
        unfold icBlock1 icExt icRest
        rw [List.append_assoc, List.takeWhile_append_dropWhile,
          List.take_append_drop]

theorem icBlocks_ne_nil (l : List (Int × Int)) : ∀ b ∈ icBlocks l, b ≠ [] := by
  suffices H : ∀ n (l : List (Int × Int)), l.length ≤ n → ∀ b ∈ icBlocks l, b ≠ [] from
    H l.length l (le_refl _)
  intro n
  induction n with
  | zero =>
      intro l hl
      have hnil : l = [] := List.eq_nil_of_length_eq_zero (by omega)
      subst hnil
      rw [icBlocks_eq]
      simp
  | succ n ih =>
      intro l hl
      rw [icBlocks_eq]
      by_cases h16 : l.length ≤ 16
      · rw [if_pos h16]
        by_cases hnil : l = []
        · rw [if_pos hnil]; simp
        · rw [if_neg hnil]; simpa using hnil
      · rw [if_neg h16]
        intro b hb
        rcases List.mem_cons.mp hb with rfl | hb2
        · have h1 : (l.take 16).length = 16 := by
            rw [List.length_take]; omega
          intro hcon
          have hc := congrArg List.length hcon
          unfold icBlock1 at hc
          simp [h1] at hc
        · exact ih (icRest l) (by have := icRest_length_lt l (by omega); omega) b hb2

theorem icBlocks_dropLast_length (l : List (Int × Int)) :
    ∀ b ∈ (icBlocks l).dropLast, 16 ≤ b.length := by
  suffices H : ∀ n (l : List (Int × Int)), l.length ≤ n →
      ∀ b ∈ (icBlocks l).dropLast, 16 ≤ b.length from
    H l.length l (le_refl _)
  intro n
  induction n with
  | zero =>
      intro l hl
      have hnil : l = [] := List.eq_nil_of_length_eq_zero (by omega)
      subst hnil
      rw [icBlocks_eq]
      simp
  | succ n ih =>
      intro l hl
      rw [icBlocks_eq]
      by_cases h16 : l.length ≤ 16
      · rw [if_pos h16]
        by_cases hnil : l = []
        · rw [if_pos hnil]; simp
        · rw [if_neg hnil]; simp
      · rw [if_neg h16]
        intro b hb
        have hlt := icRest_length_lt l (by omega)
        cases hbs : icBlocks (icRest l) with
        | nil => rw [hbs] at hb; simp at hb
        | cons b0 bs =>
            rw [hbs] at hb
            rw [List.dropLast_cons_of_ne_nil (List.cons_ne_nil b0 bs)] at hb
            rcases List.mem_cons.mp hb with rfl | hb2
            · have h1 : (l.take 16).length = 16 := by
                rw [List.length_take]; omega
              unfold icBlock1
              rw [List.length_append, h1]
              omega
            · have hmem := ih (icRest l) (by omega) b
              rw [hbs] at hmem
              exact hmem hb2

theorem icBlocks_eq_nil_iff (l : List (Int × Int)) : icBlocks l = [] ↔ l = [] := by
  rw [icBlocks_eq]
  by_cases h16 : l.length ≤ 16
  · rw [if_pos h16]
    by_cases hnil : l = []
    · rw [if_pos hnil]; simp [hnil]
    · rw [if_neg hnil]; simp [hnil]
  · rw [if_neg h16]
    have : l ≠ [] := by intro hc; rw [hc] at h16; simp at h16
    simp [this]

theorem icKey_eq (l : List (Int × Int)) (h15 : 15 < l.length) : icKey l = l[15].1 := by
  unfold icKey
  rw [List.getD_eq_getElem l (0, 0) h15]

theorem dropWhile_head_false {α : Type} (p : α → Bool) :
    ∀ (l : List α) {q0 : α} {rest : List α}, l.dropWhile p = q0 :: rest → p q0 = false := by
  intro l
  induction l with
  | nil => intro q0 rest h; simp [List.dropWhile] at h
  | cons a t ih =>
      intro q0 rest h
      rw [List.dropWhile_cons] at h
      by_cases hp : p a
      · rw [if_pos hp] at h; exact ih h
      · rw [if_neg hp] at h
        obtain ⟨rfl, -⟩ := List.cons.injEq .. ▸ h
        simpa using hp

theorem take16_key_le (l : List (Int × Int)) (hs : l.Pairwise keyLe) (h : 16 < l.length) :
    ∀ p ∈ l.take 16, p.1 ≤ icKey l := by
  have h15 : 15 < l.length := by omega
  rw [icKey_eq l h15]
  have htk : l.take 16 = l.take 15 ++ [l[15]] := by
    rw [List.take_succ, List.getElem?_eq_getElem h15]; rfl
  intro p hp
  rw [htk] at hp
  rcases List.mem_append.mp hp with hp1 | hp2
  · have hsplit : l.take 15 ++ l.drop 15 = l := List.take_append_drop 15 l
    have hs2 : (l.take 15 ++ l.drop 15).Pairwise keyLe := by rw [hsplit]; exact hs
    have hcross := (List.pairwise_append.mp hs2).2.2
    have hmem : l[15] ∈ l.drop 15 := by
      rw [List.drop_eq_getElem_cons h15]
      exact List.mem_cons_self _ _
    exact hcross p hp1 _ hmem
  · have : p = l[15] := by simpa using hp2
    rw [this]

theorem drop16_key_ge (l : List (Int × Int)) (hs : l.Pairwise keyLe) (h : 16 < l.length) :
    ∀ q ∈ l.drop 16, icKey l ≤ q.1 := by
  have h15 : 15 < l.length := by omega
  rw [icKey_eq l h15]
  have hsplit : l.take 16 ++ l.drop 16 = l := List.take_append_drop 16 l
  have hs2 : (l.take 16 ++ l.drop 16).Pairwise keyLe := by rw [hsplit]; exact hs
  have hcross := (List.pairwise_append.mp hs2).2.2
  have hmem : l[15] ∈ l.take 16 := by
    have h1 : 15 < (l.take 16).length := by rw [List.length_take]; omega
    have h2 : (l.take 16)[15] = l[15] := List.getElem_take l ..
    rw [← h2]
    exact List.getElem_mem h1
  intro q hq
  exact hcross _ hmem q hq

theorem icBlock1_key_le (l : List (Int × Int)) (hs : l.Pairwise keyLe) (h : 16 < l.length) :
    ∀ p ∈ icBlock1 l, p.1 ≤ icKey l := by
  intro p hp
  rcases List.mem_append.mp hp with hp1 | hp2
  · exact take16_key_le l hs h p hp1
  · have := List.mem_takeWhile_imp hp2
    exact le_of_eq (by simpa using this)

theorem icRest_key_gt (l : List (Int × Int)) (hs : l.Pairwise keyLe) (h : 16 < l.length) :
    ∀ q ∈ icRest l, icKey l < q.1 := by
  intro q hq
  cases hrest : icRest l with
  | nil => rw [hrest] at hq; simp at hq
  | cons q0 rest2 =>
      have hrest2 : (l.drop 16).dropWhile (fun p : Int × Int => p.1 == icKey l)
          = q0 :: rest2 := hrest
      have hq0f := dropWhile_head_false (fun p : Int × Int => p.1 == icKey l)
        (l.drop 16) hrest2
      have hq0ne : q0.1 ≠ icKey l := by simpa using hq0f
      have hq0mem : q0 ∈ l.drop 16 := by
        have : q0 ∈ icRest l := by rw [hrest]; exact List.mem_cons_self _ _
        exact (List.dropWhile_sublist _).subset this
      have hq0gt : icKey l < q0.1 :=
        lt_of_le_of_ne (drop16_key_ge l hs h q0 hq0mem) (Ne.symm hq0ne)
      have hsub : List.Sublist (icRest l) l :=
        ((List.dropWhile_sublist _).trans (List.drop_sublist 16 l))
      have hpr : (icRest l).Pairwise keyLe := hs.sublist hsub
      rw [hrest] at hq hpr
      rcases List.mem_cons.mp hq with rfl | hq2
      · exact hq0gt
      · have := (List.pairwise_cons.mp hpr).1 q hq2
        exact lt_of_lt_of_le hq0gt this

/-- Distinct blocks carry strictly increasing keys (sorted input). -/
theorem icBlocks_pairwise_key_lt (l : List (Int × Int)) (hs : l.Pairwise keyLe) :
    (icBlocks l).Pairwise (fun b1 b2 => ∀ p ∈ b1, ∀ q ∈ b2, p.1 < q.1) := by
  suffices H : ∀ n (l : List (Int × Int)), l.length ≤ n → l.Pairwise keyLe →
      (icBlocks l).Pairwise (fun b1 b2 => ∀ p ∈ b1, ∀ q ∈ b2, p.1 < q.1) from
    H l.length l (le_refl _) hs
  clear hs l
  intro n
  induction n with
  | zero =>
      intro l hl _
      have hnil : l = [] := List.eq_nil_of_length_eq_zero (by omega)
      subst hnil
      rw [icBlocks_eq]
      simp
  | succ n ih =>
      intro l hl hs
      rw [icBlocks_eq]
      by_cases h16 : l.length ≤ 16
      · rw [if_pos h16]
        by_cases hnil : l = []
        · rw [if_pos hnil]; simp
        · rw [if_neg hnil]; simp
      · rw [if_neg h16]
        have h16lt : 16 < l.length := by omega
        have hlt := icRest_length_lt l h16lt
        have hsub : List.Sublist (icRest l) l :=
          ((List.dropWhile_sublist _).trans (List.drop_sublist 16 l))
        refine List.pairwise_cons.mpr ⟨?_, ih (icRest l) (by omega) (hs.sublist hsub)⟩
        intro b2 hb2 p hp q hq
        have hqrest : q ∈ icRest l := by
          rw [← icBlocks_flatten (icRest l)]
          exact List.mem_flatten.mpr ⟨b2, hb2, hq⟩
        exact lt_of_le_of_lt (icBlock1_key_le l hs h16lt p hp)
          (icRest_key_gt l hs h16lt q hqrest)

theorem icPadOf_le (bs : List (List (Int × Int))) : icPadOf bs ≤ 16 := by
  unfold icPadOf
  cases bs.getLast? with
  | none => dsimp only; omega
  | some b => dsimp only; split <;> omega

/-- The regular-item count of a block list equals the sum of min(16, size)
over its blocks, provided every non-final block has at least sixteen
entries. -/
theorem icPadOf_sum (bs : List (List (Int × Int)))
    (hdl : ∀ b ∈ bs.dropLast, 16 ≤ b.length) :
    16 * bs.length - icPadOf bs = (bs.map (fun b => min 16 b.length)).sum := by
  induction bs with
  | nil => simp [icPadOf]
  | cons b bs ih =>
      cases bs with
      | nil =>
          simp only [icPadOf, List.getLast?_singleton, List.map_cons, List.map_nil,
            List.sum_cons, List.sum_nil, List.length_cons, List.length_nil]
          split <;> omega
      | cons b2 bs2 =>
          have hb16 : 16 ≤ b.length := by
            apply hdl
            rw [List.dropLast_cons_of_ne_nil (List.cons_ne_nil b2 bs2)]
            exact List.mem_cons_self _ _
          have hdl2 : ∀ x ∈ (b2 :: bs2).dropLast, 16 ≤ x.length := by
            intro x hx
            apply hdl
            rw [List.dropLast_cons_of_ne_nil (List.cons_ne_nil b2 bs2)]
            exact List.mem_cons_of_mem _ hx
          have hpad : icPadOf (b :: b2 :: bs2) = icPadOf (b2 :: bs2) := by
            unfold icPadOf
            rw [List.getLast?_cons_cons]
          have hple := icPadOf_le (b2 :: bs2)
          have hrec := ih hdl2
          rw [List.map_cons, List.sum_cons, hpad, ← hrec]
          have hmin : min 16 b.length = 16 := by omega
          rw [hmin]
          simp only [List.length_cons] at *
          omega

theorem rCode_eq_sum (l : List (Int × Int)) :
    rCode l = ((icBlocks l).map (fun b => min 16 b.length)).sum :=
  icPadOf_sum (icBlocks l) (icBlocks_dropLast_length l)

theorem sum_sixteen_bounds : ∀ ms : List Nat, ms ≠ [] →
    (∀ x ∈ ms.dropLast, x = 16) → (∀ x ∈ ms, 1 ≤ x ∧ x ≤ 16) →
    16 * (ms.length - 1) < ms.sum ∧ ms.sum ≤ 16 * ms.length := by
  intro ms
  induction ms with
  | nil => intro h; exact absurd rfl h
  | cons x ms ih =>
      intro _ hdl hall
      cases ms with
      | nil =>
          have := hall x (List.mem_cons_self _ _)
          simp only [List.sum_cons, List.sum_nil, List.length_cons, List.length_nil]
          omega
      | cons y ms2 =>
          have hx : x = 16 := by
            apply hdl
            rw [List.dropLast_cons_of_ne_nil (List.cons_ne_nil y ms2)]
            exact List.mem_cons_self _ _
          have hdl2 : ∀ z ∈ (y :: ms2).dropLast, z = 16 := by
            intro z hz
            apply hdl
            rw [List.dropLast_cons_of_ne_nil (List.cons_ne_nil y ms2)]
            exact List.mem_cons_of_mem _ hz
          have hall2 : ∀ z ∈ (y :: ms2), 1 ≤ z ∧ z ≤ 16 := by
            intro z hz
            exact hall z (List.mem_cons_of_mem _ hz)
          have hrec := ih (List.cons_ne_nil y ms2) hdl2 hall2
          simp only [List.sum_cons, List.length_cons] at *
          omega

theorem rCode_bounds (l : List (Int × Int)) (hne : l ≠ []) :
    16 * ((icBlocks l).length - 1) < rCode l ∧ rCode l ≤ 16 * (icBlocks l).length := by
  rw [rCode_eq_sum]
  have hlen : ((icBlocks l).map (fun b => min 16 b.length)).length = (icBlocks l).length :=
    List.length_map _ _
  have h := sum_sixteen_bounds ((icBlocks l).map (fun b => min 16 b.length)) ?_ ?_ ?_
  · rw [hlen] at h; exact h
  · simp only [ne_eq, List.map_eq_nil_iff]
    rw [icBlocks_eq_nil_iff]
    exact hne
  · intro x hx
    rw [← List.map_dropLast] at hx
    obtain ⟨b, hb, rfl⟩ := List.mem_map.mp hx
    have := icBlocks_dropLast_length l b hb
    omega
  · intro x hx
    obtain ⟨b, hb, rfl⟩ := List.mem_map.mp hx
    have h1 : b ≠ [] := icBlocks_ne_nil l b hb
    have h2 : 1 ≤ b.length := by
      cases b with
      | nil => exact absurd rfl h1
      | cons c cs => simp
    exact ⟨by omega, by omega⟩

theorem rCode_le_length (l : List (Int × Int)) : rCode l ≤ l.length := by
  rw [rCode_eq_sum]
  have h1 : ((icBlocks l).map (fun b => min 16 b.length)).sum
      ≤ ((icBlocks l).map (fun b => b.length)).sum :=
    List.sum_le_sum (fun b _ => min_le_right _ _)
  have h2 : ((icBlocks l).map (fun b => b.length)).sum = l.length := by
    rw [← List.length_flatten, icBlocks_flatten]
  omega

theorem mrCode_eq_blocks (l : List (Int × Int)) (hne : l ≠ []) :
    mrCode l = ((icBlocks l).length : Int) := by
  obtain ⟨hlo, hhi⟩ := rCode_bounds l hne
  have hnb : 1 ≤ (icBlocks l).length := by
    have hni : icBlocks l ≠ [] := by rw [ne_eq, icBlocks_eq_nil_iff]; exact hne
    exact List.length_pos.mpr hni
  have hr1 : 1 ≤ rCode l := by omega
  unfold mrCode
  have hcast : ((rCode l : Int) - 1) = ((rCode l - 1 : Nat) : Int) := by omega
  rw [hcast]
  have htdiv : ((rCode l - 1 : Nat) : Int).tdiv 16 = ((rCode l - 1) / 16 : Nat) := rfl
  rw [htdiv]
  have : (rCode l - 1) / 16 = (icBlocks l).length - 1 := by omega
  rw [this]
  omega

/-- C7: for an IndexCompressed built over pairs sorted by key, no key
value occurs in two distinct blocks, the regular-item count satisfies
r = sum of min(16, block size) over blocks, the overflow count satisfies
o + r = N, and the sync-block count mr equals the number of blocks, which
is the rounded-up r / 16 whenever r is positive. -/
theorem indexCompressed_block_invariants (l : List (Int × Int))
    (hs : l.Pairwise keyLe) (hne : l ≠ []) :
    (icBlocks l).Pairwise (fun b1 b2 => ∀ p ∈ b1, ∀ q ∈ b2, p.1 ≠ q.1)
    ∧ rCode l = ((icBlocks l).map (fun b => min 16 b.length)).sum
    ∧ rCode l + oCode l = l.length
    ∧ mrCode l = ((icBlocks l).length : Int)
    ∧ (0 < rCode l → (icBlocks l).length = (rCode l + 15) / 16) := by
  refine ⟨?_, rCode_eq_sum l, ?_, mrCode_eq_blocks l hne, ?_⟩
  · exact (icBlocks_pairwise_key_lt l hs).imp
      (fun h p hp q hq => ne_of_lt (h p hp q hq))
  · have := rCode_le_length l
    unfold oCode
    omega
  · intro hr
    obtain ⟨hlo, hhi⟩ := rCode_bounds l hne
    omega

/-- Witness for indexCompressed_block_invariants at the key-sorted pair
list [(1,5), (1,6), (2,7)]. -/
theorem indexCompressed_block_invariants_witness :
    (([((1 : Int), (5 : Int)), (1, 6), (2, 7)]).Pairwise keyLe
      ∧ ([((1 : Int), (5 : Int)), (1, 6), (2, 7)] : List (Int × Int)) ≠ [])
    ∧ mrCode [((1 : Int), (5 : Int)), (1, 6), (2, 7)]
        = ((icBlocks [((1 : Int), (5 : Int)), (1, 6), (2, 7)]).length : Int) :=
  ⟨⟨by decide, by decide⟩,
    (indexCompressed_block_invariants [(1, 5), (1, 6), (2, 7)]
      (by decide) (by decide)).2.2.2.1⟩

/-! ### VectorComp / VectorDelta block counts (components.py) and C10

Both constructors compute m = int((n - 1) / BLOCKSIZE) + 1 (Python float
division truncating toward zero) and then loop over range(0, n, 16),
taking sixteen rows per block and padding the trailing short block with
-1 rows.  The model covers d = 1, the only shape the block-count
assertions depend on. -/

/-- Chunks of up to sixteen values cut by the block loop, the final short
chunk padded with -1 to sixteen entries; the fuel (list length) keeps the
recursion structural. -/
def vcChunksGo : Nat → List Int → List (List Int)
  | _, [] => []
  | 0, _ :: _ => []
  | fuel + 1, a :: t =>
      (if 16 ≤ (a :: t).length then (a :: t).take 16
       else (a :: t) ++ List.replicate (16 - (a :: t).length) (-1))
      :: vcChunksGo fuel ((a :: t).drop 16)

/-- Padded value blocks of the VectorComp and VectorDelta loops. -/
def vcChunks (data : List Int) : List (List Int) := vcChunksGo data.length data

/-- Encoded blocks of VectorComp: each padded chunk varint-block
encoded. -/
def vcompBlocks (data : List Int) : List (List Nat) :=
  (vcChunks data).map encodeVarintBlock

/-- Encoded blocks of VectorDelta: each padded chunk delta-encoded within
the block, then varint-block encoded. -/
def vdeltaBlocks (data : List Int) : List (List Nat) :=
  (vcChunks data).map (fun b => encodeVarintBlock (deltaEncode b))

/-- Expected block count m = int((n - 1) / 16) + 1 with Python division
truncating toward zero. -/
def vcM (n : Nat) : Int := ((n : Int) - 1).tdiv 16 + 1

/-- Sync offsets: 0 followed by the running sums of the lengths of all
blocks but the last. -/
def prefixSumsGo (acc : Nat) : List (List Nat) → List Nat
  | [] => []
  | b :: rest => acc :: prefixSumsGo (acc + b.length) rest

/-- Sync vector of VectorComp and VectorDelta: starts at [0] and appends
one cumulative offset per further block. -/
def vcSync (blocks : List (List Nat)) : List Nat :=
  if blocks.isEmpty then [0] else prefixSumsGo 0 blocks

theorem vcChunksGo_length : ∀ fuel (l : List Int), l.length ≤ fuel →
    (vcChunksGo fuel l).length = (l.length + 15) / 16 := by
  intro fuel
  induction fuel with
  | zero =>
      intro l hl
      have hnil : l = [] := List.eq_nil_of_length_eq_zero (by omega)
      subst hnil
      simp [vcChunksGo]
  | succ fuel ih =>
      intro l hl
      cases l with
      | nil => simp [vcChunksGo]
      | cons a t =>
          have hdrop : ((a :: t).drop 16).length = (a :: t).length - 16 :=
            List.length_drop 16 (a :: t)
          have hrec := ih ((a :: t).drop 16) (by simp at hl ⊢; omega)
          simp only [vcChunksGo, List.length_cons]
          rw [hrec, hdrop]
          simp only [List.length_cons]
          omega

theorem vcChunks_length (data : List Int) :
    (vcChunks data).length = (data.length + 15) / 16 :=
  vcChunksGo_length data.length data (le_refl _)

theorem prefixSumsGo_length : ∀ (bs : List (List Nat)) (acc : Nat),
    (prefixSumsGo acc bs).length = bs.length := by
  intro bs
  induction bs with
  | nil => intro acc; simp [prefixSumsGo]
  | cons b rest ih =>
      intro acc
      simp only [prefixSumsGo, List.length_cons]
      rw [ih]

theorem vcSync_length (blocks : List (List Nat)) (h : blocks ≠ []) :
    (vcSync blocks).length = blocks.length := by
  unfold vcSync
  rw [if_neg (by simpa using h)]
  exact prefixSumsGo_length blocks 0

theorem vcM_eq (n : Nat) (h : 1 ≤ n) : vcM n = (((n + 15) / 16 : Nat) : Int) := by
  unfold vcM
  have hcast : ((n : Int) - 1) = ((n - 1 : Nat) : Int) := by omega
  rw [hcast]
  have htdiv : ((n - 1 : Nat) : Int).tdiv 16 = (((n - 1) / 16 : Nat) : Int) := rfl
  rw [htdiv]
  omega

/-- C10: for n at least 1 the block-count assertions of VectorComp,
VectorDelta, and IndexCompressed all hold (the number of encoded blocks,
and the length of the sync vector, equal the computed m, respectively mr);
for n = 0 the computed expected count is 1 while zero blocks are encoded,
so every compressed constructor fails its assertion and empty sequences
cannot be encoded in compressed form. -/
theorem compressed_block_count_asserts (data : List Int) (pairs : List (Int × Int)) :
    (data ≠ [] →
      ((vcompBlocks data).length : Int) = vcM data.length
      ∧ ((vdeltaBlocks data).length : Int) = vcM data.length
      ∧ (vcSync (vcompBlocks data)).length = (vcompBlocks data).length)
    ∧ (pairs ≠ [] → mrCode pairs = ((icBlocks pairs).length : Int))
    ∧ ((vcompBlocks ([] : List Int)).length : Int) ≠ vcM 0
    ∧ ((icBlocks ([] : List (Int × Int))).length : Int) ≠ mrCode [] := by
  have hlen1 : 1 ≤ data.length → ((vcompBlocks data).length : Int) = vcM data.length := by
    intro h1
    rw [vcompBlocks, List.length_map, vcChunks_length, vcM_eq data.length h1]
  refine ⟨fun hne => ⟨?_, ?_, ?_⟩, fun hne => mrCode_eq_blocks pairs hne, by decide, by decide⟩
  · exact hlen1 (by cases data with | nil => exact absurd rfl hne | cons a t => simp)
  · have h1 : 1 ≤ data.length := by
      cases data with | nil => exact absurd rfl hne | cons a t => simp
    rw [vdeltaBlocks, List.length_map, vcChunks_length, vcM_eq data.length h1]
  · apply vcSync_length
    intro hcon
    have h1 : 1 ≤ data.length := by
      cases data with | nil => exact absurd rfl hne | cons a t => simp
    have := hlen1 h1
    rw [hcon] at this
    rw [vcM_eq data.length h1] at this
    simp at this
    omega

/-- Witness for compressed_block_count_asserts at the one-element data
[5] and the single pair (0, 0). -/
theorem compressed_block_count_asserts_witness :
    (([5] : List Int) ≠ [] ∧ ([((0 : Int), (0 : Int))] : List (Int × Int)) ≠ [])
    ∧ ((vcompBlocks [5]).length : Int) = vcM 1
    ∧ mrCode [((0 : Int), (0 : Int))] = ((icBlocks [((0 : Int), (0 : Int))]).length : Int) :=
  ⟨⟨by decide, by decide⟩,
    ((compressed_block_count_asserts [5] [(0, 0)]).1 (by decide)).1,
    (compressed_block_count_asserts [5] [(0, 0)]).2.1 (by decide)⟩

/-! ### InvertedIndex postings order and encoding, C8 -/

theorem postingsAux_cons (t n : Nat) (occ : List Nat) (ps : List (List Nat)) :
    postingsAux t n (occ :: ps)
      = (occ.filter (fun x => x == t)).map (fun _ => n) ++ postingsAux t (n + 1) ps := rfl

theorem postingsAux_ge (t : Nat) :
    ∀ (ps : List (List Nat)) (n : Nat), ∀ i ∈ postingsAux t n ps, n ≤ i := by
  intro ps
  induction ps with
  | nil => intro n i hi; simp [postingsAux] at hi
  | cons occ ps ih =>
      intro n i hi
      rw [postingsAux_cons] at hi
      rcases List.mem_append.mp hi with h1 | h2
      · obtain ⟨x, -, rfl⟩ := List.mem_map.mp h1
        exact le_refl _
      · exact le_trans (by omega) (ih (n + 1) i h2)

theorem postingsAux_pairwise_le (t : Nat) :
    ∀ (ps : List (List Nat)) (n : Nat), (postingsAux t n ps).Pairwise (· ≤ ·) := by
  intro ps
  induction ps with
  | nil => intro n; simp [postingsAux]
  | cons occ ps ih =>
      intro n
      rw [postingsAux_cons]
      rw [List.pairwise_append]
      refine ⟨?_, ih (n + 1), ?_⟩
      · apply List.pairwise_of_forall_mem_list
        intro a ha b hb
        obtain ⟨x, -, rfl⟩ := List.mem_map.mp ha
        obtain ⟨y, -, rfl⟩ := List.mem_map.mp hb
        exact le_refl _
      · intro a ha b hb
        obtain ⟨x, -, rfl⟩ := List.mem_map.mp ha
        exact le_trans (by omega) (postingsAux_ge t ps (n + 1) b hb)

theorem filter_beq_length_le_one (occ : List Nat) (t : Nat) (h : occ.Nodup) :
    (occ.filter (fun x => x == t)).length ≤ 1 := by
  have hnd : (occ.filter (fun x => x == t)).Nodup := h.filter _
  have hall : ∀ x ∈ occ.filter (fun x => x == t), x = t := by
    intro x hx
    simpa using (List.mem_filter.mp hx).2
  cases hf : occ.filter (fun x => x == t) with
  | nil => simp
  | cons a rest =>
      cases rest with
      | nil => simp
      | cons b rest2 =>
          rw [hf] at hnd hall
          have ha : a = t := hall a (List.mem_cons_self _ _)
          have hb : b = t := hall b (List.mem_cons_of_mem _ (List.mem_cons_self _ _))
          have := (List.pairwise_cons.mp hnd).1 b (List.mem_cons_self _ _)
          exact absurd (ha.trans hb.symm) this

theorem pairwise_of_length_le_one {α : Type} {r : α → α → Prop} :
    ∀ {l : List α}, l.length ≤ 1 → l.Pairwise r := by
  intro l hl
  cases l with
  | nil => simp
  | cons a rest =>
      cases rest with
      | nil => simp
      | cons b rest2 => simp at hl

theorem postingsAux_pairwise_lt (t : Nat) :
    ∀ (ps : List (List Nat)) (n : Nat), (∀ occ ∈ ps, occ.Nodup) →
      (postingsAux t n ps).Pairwise (· < ·) := by
  intro ps
  induction ps with
  | nil => intro n _; simp [postingsAux]
  | cons occ ps ih =>
      intro n hnd
      rw [postingsAux_cons]
      rw [List.pairwise_append]
      refine ⟨?_, ih (n + 1) (fun o ho => hnd o (List.mem_cons_of_mem _ ho)), ?_⟩
      · apply pairwise_of_length_le_one
        rw [List.length_map]
        exact filter_beq_length_le_one occ t (hnd occ (List.mem_cons_self _ _))
      · intro a ha b hb
        obtain ⟨x, -, rfl⟩ := List.mem_map.mp ha
        exact lt_of_lt_of_le (by omega) (postingsAux_ge t ps (n + 1) b hb)

theorem zipWith_sub_nonneg : ∀ (xs : List Int) (x : Int), (x :: xs).Pairwise (· ≤ ·) →
    ∀ d ∈ List.zipWith (fun a b => a - b) xs (x :: xs), 0 ≤ d := by
  intro xs
  induction xs with
  | nil => intro x _ d hd; simp at hd
  | cons y ys ih =>
      intro x hp d hd
      rw [List.zipWith_cons_cons] at hd
      rcases List.mem_cons.mp hd with rfl | hd2
      · have hxy : x ≤ y := (List.pairwise_cons.mp hp).1 y (List.mem_cons_self _ _)
        omega
      · exact ih y (List.pairwise_cons.mp hp).2 d hd2

theorem deltaEncode_nonneg (l : List Int) (h0 : ∀ x ∈ l, 0 ≤ x)
    (hp : l.Pairwise (· ≤ ·)) : ∀ d ∈ deltaEncode l, 0 ≤ d := by
  cases l with
  | nil => intro d hd; simp [deltaEncode] at hd
  | cons x xs =>
      intro d hd
      rw [show deltaEncode (x :: xs)
          = x :: List.zipWith (fun a b => a - b) xs (x :: xs) from rfl] at hd
      rcases List.mem_cons.mp hd with rfl | hd2
      · exact h0 d (List.mem_cons_self _ _)
      · exact zipWith_sub_nonneg xs x hp d hd2

theorem encodeVarint_of_nonneg (n : Int) (h : 0 ≤ n) :
    encodeVarint n = leb128 (2 * n.toNat) := by
  unfold encodeVarint zigzag
  rw [if_pos h]

theorem encodeVarintBlock_of_nonneg (l : List Int) (h : ∀ d ∈ l, 0 ≤ d) :
    encodeVarintBlock l = (l.map (fun d => leb128 (2 * d.toNat))).flatten := by
  unfold encodeVarintBlock
  congr 1
  exact List.map_congr_left (fun d hd => encodeVarint_of_nonneg d (h d hd))

/-- C8 (amended): every postings list is non-decreasing in corpus-position
order, and strictly ascending when no position lists the same type id
twice; the stored deltas (first element raw, later elements the difference
from their predecessors) are all non-negative; and the deltas are encoded
with the signed zig-zag varint block encoder, so each non-negative delta d
is written as the LEB128 bytes of 2·d rather than of d itself. -/
theorem invertedIndex_postings (types : List (List Nat)) (positions : List (List Nat)) :
    (∀ pl ∈ postingsOf types.length positions, pl.Pairwise (· ≤ ·))
    ∧ ((∀ occ ∈ positions, occ.Nodup) →
        ∀ pl ∈ postingsOf types.length positions, pl.Pairwise (· < ·))
    ∧ (∀ pl ∈ postingsOf types.length positions,
        ∀ d ∈ deltaEncode (pl.map Int.ofNat), 0 ≤ d)
    ∧ invPostingsEncoded types positions
        = (postingsOf types.length positions).map
            (fun pl => ((deltaEncode (pl.map Int.ofNat)).map
              (fun d => leb128 (2 * d.toNat))).flatten) := by
  have hle : ∀ pl ∈ postingsOf types.length positions, pl.Pairwise (· ≤ ·) := by
    intro pl hpl
    obtain ⟨t, -, rfl⟩ := List.mem_map.mp hpl
    exact postingsAux_pairwise_le t positions 0
  have hd : ∀ pl ∈ postingsOf types.length positions,
      ∀ d ∈ deltaEncode (pl.map Int.ofNat), 0 ≤ d := by
    intro pl hpl
    apply deltaEncode_nonneg
    · intro x hx
      simp only [List.mem_map] at hx
      obtain ⟨y, -, rfl⟩ := hx
      exact Int.ofNat_nonneg y
    · refine List.Pairwise.map Int.ofNat ?_ (hle pl hpl)
      intro a b h
      exact Int.ofNat_le.mpr h
  refine ⟨hle, ?_, hd, ?_⟩
  · intro hnd pl hpl
    obtain ⟨t, -, rfl⟩ := List.mem_map.mp hpl
    exact postingsAux_pairwise_lt t positions 0 hnd
  · unfold invPostingsEncoded
    apply List.map_congr_left
    intro pl hpl
    exact encodeVarintBlock_of_nonneg _ (hd pl hpl)

/-- Witness for invertedIndex_postings: one type occurring at positions 0
and 1, each position listing it once. -/
theorem invertedIndex_postings_witness :
    (∀ occ ∈ ([[0], [0]] : List (List Nat)), occ.Nodup)
    ∧ ∀ pl ∈ postingsOf 1 [[0], [0]], pl.Pairwise (· < ·) :=
  ⟨by decide, (invertedIndex_postings [[120]] [[0], [0]]).2.1 (by decide)⟩

/-- C8 counterexample: the claim as stated fails twice at the input where
type 0 occurs twice at position 0 and once at position 1.  The postings
list [0, 0, 1] is not strictly ascending, and the emitted bytes are the
zig-zag encoding [0, 0, 2] of the deltas [0, 0, 1], not the plain
unsigned LEB128 bytes [0, 0, 1] the claim demands. -/
theorem invertedIndex_postings_counterexample :
    postingsOf 1 [[0, 0], [0]] = [[0, 0, 1]]
    ∧ ¬ (([0, 0, 1] : List Nat).Pairwise (· < ·))
    ∧ invPostingsEncoded [[120]] [[0, 0], [0]] = [[0, 0, 2]]
    ∧ encodeVarintBlockUnsigned (deltaEncode [0, 0, 1]) = [0, 0, 1] := by decide

end Ziggypy
